import Mathlib

/-!
Verification of the clustering core of the `cluster_study` repository.

The embedding follows the two source files that contain the core:
  * `src/AdvancedLesson.tsx` — `calcDistance`, `kMeans`, `dbscan`;
  * `src/IntroductoryLesson.tsx` — `mulberry32`, `runKMeans`, `generatePoints`,
    `evaluate`.

Numeric values are embedded as exact rationals (`ℚ`); the real-valued
distance function (which uses a square root for the L2 norm) is embedded
over `ℝ` as `calcDistance`, and the algorithms, which only *compare*
distances, use the order-isomorphic rational forms `calcDistQ` / `distLE`
whose agreement with `calcDistance` is proved (`distLE_iff`,
`calcDistQ_le_iff`, `calcDistQ_lt_iff`).
-/

namespace ClusterStudy

/-- 2D point, `interface Point { x: number; y: number }`. -/
structure Point where
  x : ℚ
  y : ℚ
deriving DecidableEq

instance : Inhabited Point := ⟨⟨0, 0⟩⟩

/-- `interface LabeledPoint extends Point { cluster: number }`;
`-1` indicates noise (DBSCAN). -/
structure LabeledPoint where
  x : ℚ
  y : ℚ
  cluster : ℤ
deriving DecidableEq

instance : Inhabited LabeledPoint := ⟨⟨0, 0, 0⟩⟩

/-- `type NormKey = "L1" | "L2" | "L∞"`. -/
inductive NormKey where
  | L1
  | L2
  | Linf
deriving DecidableEq

/-- `calcDistance` from `AdvancedLesson.tsx`: L1 is `|dx| + |dy|`,
L2 is `Math.hypot(dx, dy) = sqrt(dx^2 + dy^2)`, L∞ is `max(|dx|, |dy|)`.
(The `default` arm of the source's `switch` is unreachable: `NormKey`
is a closed three-element union.) -/
noncomputable def calcDistance (a b : Point) (norm : NormKey) : ℝ :=
  let dx : ℝ := (a.x : ℝ) - (b.x : ℝ)
  let dy : ℝ := (a.y : ℝ) - (b.y : ℝ)
  match norm with
  | .L1 => |dx| + |dy|
  | .L2 => Real.sqrt (dx ^ 2 + dy ^ 2)
  | .Linf => max |dx| |dy|

/-- Rational companion of `calcDistance` used by the executable
algorithm embeddings: for L1 and L∞ it is the distance itself, for L2
it is the *squared* distance (the square root is strictly monotone on
the nonnegatives, so all distance comparisons agree; see
`calcDistQ_le_iff`). -/
def calcDistQ (a b : Point) (norm : NormKey) : ℚ :=
  let dx : ℚ := a.x - b.x
  let dy : ℚ := a.y - b.y
  match norm with
  | .L1 => |dx| + |dy|
  | .L2 => dx ^ 2 + dy ^ 2
  | .Linf => max |dx| |dy|

/-- Decidable form of the source comparison `calcDistance(a, b, norm) <= eps`
(used by `dbscan`'s `regionQuery`); agreement with the real-valued
comparison is proved in `distLE_iff`. -/
def distLE (a b : Point) (norm : NormKey) (eps : ℚ) : Bool :=
  match norm with
  | .L2 => decide (0 ≤ eps ∧ calcDistQ a b .L2 ≤ eps ^ 2)
  | _ => decide (calcDistQ a b norm ≤ eps)

theorem calcDistQ_nonneg (a b : Point) (norm : NormKey) :
    0 ≤ calcDistQ a b norm := by
  cases norm <;> simp only [calcDistQ] <;> positivity

theorem calcDistQ_symm (a b : Point) (norm : NormKey) :
    calcDistQ a b norm = calcDistQ b a norm := by
  cases norm <;> simp only [calcDistQ]
  · rw [abs_sub_comm, abs_sub_comm a.y]
  · ring
  · rw [abs_sub_comm, abs_sub_comm a.y]

theorem calcDistance_symm (a b : Point) (norm : NormKey) :
    calcDistance a b norm = calcDistance b a norm := by
  cases norm <;> simp only [calcDistance]
  · rw [abs_sub_comm, abs_sub_comm ((a.y : ℝ))]
  · ring_nf
  · rw [abs_sub_comm, abs_sub_comm ((a.y : ℝ))]

theorem calcDistance_eq_cast_L1 (a b : Point) :
    calcDistance a b .L1 = ((|a.x - b.x| + |a.y - b.y| : ℚ) : ℝ) := by
  simp [calcDistance]

theorem calcDistance_eq_cast_Linf (a b : Point) :
    calcDistance a b .Linf = ((max |a.x - b.x| |a.y - b.y| : ℚ) : ℝ) := by
  simp [calcDistance]

theorem calcDistance_eq_sqrt_L2 (a b : Point) :
    calcDistance a b .L2 = Real.sqrt ((calcDistQ a b .L2 : ℚ) : ℝ) := by
  simp [calcDistance, calcDistQ]

/-- The Boolean test `distLE` decides exactly the source comparison
`calcDistance(a,b,norm) ≤ eps`. -/
theorem distLE_iff (a b : Point) (norm : NormKey) (eps : ℚ) :
    distLE a b norm eps = true ↔ calcDistance a b norm ≤ (eps : ℝ) := by
  cases norm
  · rw [calcDistance_eq_cast_L1]
    simp [distLE, calcDistQ]
    exact_mod_cast Iff.rfl
  · rw [calcDistance_eq_sqrt_L2, Real.sqrt_le_iff]
    simp only [distLE, decide_eq_true_eq]
    constructor
    · rintro ⟨he, hq⟩
      exact ⟨by exact_mod_cast he, by exact_mod_cast hq⟩
    · rintro ⟨he, hq⟩
      exact ⟨by exact_mod_cast he, by exact_mod_cast hq⟩
  · rw [calcDistance_eq_cast_Linf]
    simp [distLE, calcDistQ]
    exact_mod_cast Iff.rfl

/-- Distance comparisons computed on `calcDistQ` agree with those on the
real-valued `calcDistance` (same norm on both sides). -/
theorem calcDistQ_le_iff (a b c d : Point) (norm : NormKey) :
    calcDistQ a b norm ≤ calcDistQ c d norm ↔
      calcDistance a b norm ≤ calcDistance c d norm := by
  cases norm
  · rw [calcDistance_eq_cast_L1, calcDistance_eq_cast_L1]
    simp [calcDistQ]
    exact_mod_cast Iff.rfl
  · rw [calcDistance_eq_sqrt_L2, calcDistance_eq_sqrt_L2]
    rw [Real.sqrt_le_sqrt_iff (by exact_mod_cast calcDistQ_nonneg c d .L2)]
    exact_mod_cast Iff.rfl
  · rw [calcDistance_eq_cast_Linf, calcDistance_eq_cast_Linf]
    simp [calcDistQ]
    exact_mod_cast Iff.rfl

theorem calcDistQ_lt_iff (a b c d : Point) (norm : NormKey) :
    calcDistQ a b norm < calcDistQ c d norm ↔
      calcDistance a b norm < calcDistance c d norm := by
  constructor
  · intro h
    by_contra hle
    push_neg at hle
    exact absurd ((calcDistQ_le_iff c d a b norm).mpr hle) (not_le.mpr h)
  · intro h
    by_contra hle
    push_neg at hle
    exact absurd ((calcDistQ_le_iff c d a b norm).mp hle) (not_le.mpr h)

/-! ### DBSCAN (`dbscan` in `AdvancedLesson.tsx`) -/

/-- `regionQuery` from `dbscan`: the indices of all points (including
`idx` itself) whose distance to point `idx` is at most `eps`, in input
order. -/
def regionQuery (points : List Point) (eps : ℚ) (norm : NormKey) (idx : ℕ) : List ℕ :=
  (List.range points.length).filter
    (fun j => distLE (points.getD idx default) (points.getD j default) norm eps)

/-- The seed-set expansion of `dbscan` (`while (seedSet.length > 0)`),
with the FIFO queue explicit.  `fuel` bounds the number of pops; a point
can enter the queue at most once (pushes require the candidate to be
unvisited and not already queued, and a popped candidate is immediately
labeled), so the `points.length + 1` supplied at the call site always
suffices. -/
def dbscanExpand (points : List Point) (eps : ℚ) (minPts : ℤ) (norm : NormKey)
    (cid : ℕ) : ℕ → List ℕ → List ℤ → List ℤ
  | 0, _, labels => labels
  | _ + 1, [], labels => labels
  | fuel + 1, current :: rest, labels =>
    -- noise → border promotion
    let labels1 := if labels.getD current 0 = -1 then labels.set current (cid : ℤ) else labels
    if labels1.getD current 0 ≠ -99 then
      dbscanExpand points eps minPts norm cid fuel rest labels1
    else
      let labels2 := labels1.set current (cid : ℤ)
      let currentNeighbors := regionQuery points eps norm current
      let seedSet1 :=
        if minPts ≤ (currentNeighbors.length : ℤ) then
          rest ++ currentNeighbors.filter
            (fun n => decide (¬ n ∈ rest ∧ labels2.getD n 0 = -99))
        else rest
      dbscanExpand points eps minPts norm cid fuel seedSet1 labels2

/-- The outer scan of `dbscan` (`for (let i = 0; i < points.length; i++)`),
processing the indices in `is` in order; the state is the next fresh
cluster id and the current label array (`-99` = unvisited, `-1` = noise). -/
def dbscanGo (points : List Point) (eps : ℚ) (minPts : ℤ) (norm : NormKey) :
    List ℕ → ℕ → List ℤ → List ℤ
  | [], _, labels => labels
  | i :: is, cid, labels =>
    if labels.getD i 0 ≠ -99 then dbscanGo points eps minPts norm is cid labels
    else
      let neighbors := regionQuery points eps norm i
      if (neighbors.length : ℤ) < minPts then
        dbscanGo points eps minPts norm is cid (labels.set i (-1))
      else
        let labels1 := labels.set i (cid : ℤ)
        let seedSet := neighbors.filter (fun n => decide (¬ n = i))
        let labels2 := dbscanExpand points eps minPts norm cid (points.length + 1)
          seedSet labels1
        dbscanGo points eps minPts norm is (cid + 1) labels2

/-- `dbscan` from `AdvancedLesson.tsx`.  Labels start at `-99`
("undefined"), and the final labels are zipped back onto the points by
`points.map((p, i) => ({ ...p, cluster: labels[i] }))`. -/
def dbscan (points : List Point) (eps : ℚ) (minPts : ℤ) (norm : NormKey) :
    List LabeledPoint :=
  let labels := dbscanGo points eps minPts norm (List.range points.length) 0
    (List.replicate points.length (-99))
  points.mapIdx (fun i p => ⟨p.x, p.y, labels.getD i 0⟩)

/-! ### Random centroid seeding of `kMeans` -/

/-- One modeled draw of `Math.floor(Math.random() * points.length)`: an
arbitrary natural reduced into `[0, points.length)` (and `0` for an empty
point set, where the JS expression also evaluates to `0`). -/
def drawIdx (points : List Point) (r : ℕ) : ℕ :=
  if points.length = 0 then 0 else r % points.length

/-- The rejection-sampling loop of `kMeans`'s random centroid
initialization (`while (cs.length < k) ...`), run on the finite prefix
`rands` of the random stream consumed so far; `none` means the loop is
still running after exhausting `rands` — no finite number of draws has
yet produced `k` distinct indices. -/
def pickCentroidsGo (points : List Point) (k : ℕ) :
    List ℕ → List Point → List ℕ → Option (List Point)
  | rands, cs, seen =>
    if k ≤ cs.length then some cs
    else
      match rands with
      | [] => none
      | r :: rest =>
        let idx := drawIdx points r
        if idx ∈ seen then pickCentroidsGo points k rest cs seen
        else pickCentroidsGo points k rest (cs ++ [points.getD idx default]) (idx :: seen)

def pickCentroids (points : List Point) (k : ℕ) (rands : List ℕ) : Option (List Point) :=
  pickCentroidsGo points k rands [] []

/-! ### Basic facts about the DBSCAN state -/

theorem getD_set_self {l : List ℤ} {i : ℕ} (h : i < l.length) (v : ℤ) :
    (l.set i v).getD i 0 = v := by
  rw [List.getD_eq_getElem?_getD, List.getElem?_set_eq_of_lt _ h]
  rfl

theorem getD_set_of_ne {l : List ℤ} {m i : ℕ} (h : m ≠ i) (v : ℤ) :
    (l.set m v).getD i 0 = l.getD i 0 := by
  rw [List.getD_eq_getElem?_getD, List.getElem?_set_ne h, ← List.getD_eq_getElem?_getD]

theorem mem_regionQuery {points : List Point} {eps : ℚ} {norm : NormKey}
    {idx j : ℕ} :
    j ∈ regionQuery points eps norm idx ↔
      j < points.length ∧
        distLE (points.getD idx default) (points.getD j default) norm eps = true := by
  simp [regionQuery, List.mem_filter, List.mem_range]

theorem distLE_symm (a b : Point) (norm : NormKey) (eps : ℚ) :
    distLE a b norm eps = distLE b a norm eps := by
  cases norm <;> simp only [distLE] <;> rw [calcDistQ_symm]

theorem nodup_regionQuery (points : List Point) (eps : ℚ) (norm : NormKey)
    (idx : ℕ) : (regionQuery points eps norm idx).Nodup :=
  (List.nodup_range _).filter _

theorem dbscanExpand_length (points : List Point) (eps : ℚ) (minPts : ℤ)
    (norm : NormKey) (cid : ℕ) :
    ∀ (fuel : ℕ) (ss : List ℕ) (labels : List ℤ),
      (dbscanExpand points eps minPts norm cid fuel ss labels).length = labels.length := by
  intro fuel
  induction fuel with
  | zero => intro ss labels; rfl
  | succ n ih =>
    intro ss labels
    cases ss with
    | nil => rfl
    | cons current rest =>
      rw [dbscanExpand]
      dsimp only
      set L1 : List ℤ := if labels.getD current 0 = -1 then
        labels.set current (cid : ℤ) else labels with hL1
      have hlen1 : L1.length = labels.length := by
        rw [hL1]; split <;> simp
      by_cases h2 : L1.getD current 0 ≠ -99
      · rw [if_pos h2, ih, hlen1]
      · rw [if_neg h2, ih]
        simp [hlen1]

theorem dbscanGo_length (points : List Point) (eps : ℚ) (minPts : ℤ)
    (norm : NormKey) :
    ∀ (is : List ℕ) (cid : ℕ) (labels : List ℤ),
      (dbscanGo points eps minPts norm is cid labels).length = labels.length := by
  intro is
  induction is with
  | nil => intro cid labels; rfl
  | cons i rest ih =>
    intro cid labels
    rw [dbscanGo]
    split
    · exact ih cid labels
    · dsimp only
      split
      · rw [ih]; simp
      · rw [ih, dbscanExpand_length]; simp

/-- If the point at index `i` is beyond `eps` of every other point, then
`i` is never a member of any other point's neighborhood. -/
theorem not_mem_regionQuery_of_isolated
    {points : List Point} {eps : ℚ} {norm : NormKey} {i : ℕ}
    (hiso : ∀ j, j < points.length → j ≠ i →
      distLE (points.getD i default) (points.getD j default) norm eps = false)
    {j : ℕ} (hjn : j < points.length) (hj : j ≠ i) :
    i ∉ regionQuery points eps norm j := by
  intro hmem
  rw [mem_regionQuery] at hmem
  have := hiso j hjn hj
  rw [distLE_symm] at this
  rw [this] at hmem
  exact absurd hmem.2 (by simp)

/-- The seed-set expansion never touches the label of an index that is in
nobody's neighborhood and not in the queue. -/
theorem dbscanExpand_getD_isolated
    {points : List Point} {eps : ℚ} {minPts : ℤ} {norm : NormKey} {cid i : ℕ}
    (hnm : ∀ j, j < points.length → j ≠ i → i ∉ regionQuery points eps norm j) :
    ∀ (fuel : ℕ) (ss : List ℕ) (labels : List ℤ),
      (∀ m ∈ ss, m ≠ i ∧ m < points.length) →
      (dbscanExpand points eps minPts norm cid fuel ss labels).getD i 0 =
        labels.getD i 0 := by
  intro fuel
  induction fuel with
  | zero => intro ss labels _; rfl
  | succ n ih =>
    intro ss labels hss
    cases ss with
    | nil => rfl
    | cons current rest =>
      obtain ⟨hci, hcn⟩ := hss current (List.mem_cons_self _ _)
      have hrest : ∀ m ∈ rest, m ≠ i ∧ m < points.length :=
        fun m hm => hss m (List.mem_cons_of_mem _ hm)
      rw [dbscanExpand]
      dsimp only
      set L1 : List ℤ := if labels.getD current 0 = -1 then
        labels.set current (cid : ℤ) else labels with hL1
      have h1 : L1.getD i 0 = labels.getD i 0 := by
        rw [hL1]
        split
        · exact getD_set_of_ne hci _
        · rfl
      by_cases h2 : L1.getD current 0 ≠ -99
      · rw [if_pos h2, ih rest _ hrest, h1]
      · rw [if_neg h2, ih]
        · rw [getD_set_of_ne hci, h1]
        · intro m hm
          split at hm
          · rcases List.mem_append.mp hm with hm | hm
            · exact hrest m hm
            · have hm2 := (List.mem_filter.mp hm).1
              have hmn := (mem_regionQuery.mp hm2).1
              refine ⟨?_, hmn⟩
              rintro rfl
              exact hnm current hcn hci hm2
          · exact hrest m hm

/-- An index that has at most one `eps`-neighbor (counting itself) and is
in nobody else's neighborhood keeps (or receives) the noise label `-1`
through the whole outer scan, provided it is still unvisited and scheduled,
or already marked noise. -/
theorem dbscanGo_getD_isolated
    {points : List Point} {eps : ℚ} {minPts : ℤ} {norm : NormKey} {i : ℕ}
    (hi : i < points.length)
    (hnm : ∀ j, j < points.length → j ≠ i → i ∉ regionQuery points eps norm j)
    (hshort : ((regionQuery points eps norm i).length : ℤ) < minPts) :
    ∀ (is : List ℕ) (cid : ℕ) (labels : List ℤ),
      labels.length = points.length →
      (∀ m ∈ is, m < points.length) →
      ((labels.getD i 0 = -99 ∧ i ∈ is) ∨ labels.getD i 0 = -1) →
      (dbscanGo points eps minPts norm is cid labels).getD i 0 = -1 := by
  intro is
  induction is with
  | nil =>
    intro cid labels _ _ hinv
    rcases hinv with ⟨_, h⟩ | h
    · exact absurd h (List.not_mem_nil i)
    · exact h
  | cons j rest ih =>
    intro cid labels hlen his hinv
    have hrest : ∀ m ∈ rest, m < points.length :=
      fun m hm => his m (List.mem_cons_of_mem _ hm)
    rw [dbscanGo]
    by_cases hj : labels.getD j 0 ≠ -99
    · rw [if_pos hj]
      refine ih cid labels hlen hrest ?_
      rcases hinv with ⟨hval, hmem⟩ | hval
      · rcases List.mem_cons.mp hmem with rfl | hmem
        · exact absurd hval hj
        · exact Or.inl ⟨hval, hmem⟩
      · exact Or.inr hval
    · rw [if_neg hj]
      push_neg at hj
      dsimp only
      by_cases hji : j = i
      · subst hji
        rw [if_pos hshort]
        refine ih cid _ (by simp [hlen]) hrest (Or.inr ?_)
        exact getD_set_self (hlen ▸ hi) _
      · have hinv2 : (labels.getD i 0 = -99 ∧ i ∈ rest) ∨ labels.getD i 0 = -1 := by
          rcases hinv with ⟨hval, hmem⟩ | hval
          · rcases List.mem_cons.mp hmem with rfl | hmem
            · exact absurd rfl hji
            · exact Or.inl ⟨hval, hmem⟩
          · exact Or.inr hval
        split
        · refine ih cid _ (by simp [hlen]) hrest ?_
          rw [getD_set_of_ne hji]
          exact hinv2
        · refine ih (cid + 1) _ ?_ hrest ?_
          · rw [dbscanExpand_length]; simp [hlen]
          · have hset : ((labels.set j (cid : ℤ)).getD i 0 = -99 ∧ i ∈ rest) ∨
                (labels.set j (cid : ℤ)).getD i 0 = -1 := by
              rw [getD_set_of_ne hji]; exact hinv2
            have hexp := @dbscanExpand_getD_isolated points eps minPts norm cid i
              hnm (points.length + 1)
              ((regionQuery points eps norm j).filter (fun n => decide (¬ n = j)))
              (labels.set j (cid : ℤ)) ?_
            · rw [hexp]; exact hset
            · intro m hm
              have hm1 := (List.mem_filter.mp hm).1
              have hmn := (mem_regionQuery.mp hm1).1
              refine ⟨?_, hmn⟩
              rintro rfl
              exact hnm j (his j (List.mem_cons_self _ _)) hji hm1

theorem getD_set_cases (l : List ℤ) (m j : ℕ) (v : ℤ) :
    (l.set m v).getD j 0 = l.getD j 0 ∨ (l.set m v).getD j 0 = v := by
  rcases eq_or_ne m j with rfl | hne
  · by_cases h : m < l.length
    · exact Or.inr (getD_set_self h v)
    · left
      rw [List.getD_eq_getElem?_getD, List.getD_eq_getElem?_getD,
        List.getElem?_set, if_pos rfl, if_neg h,
        List.getElem?_eq_none (by omega)]
  · exact Or.inl (getD_set_of_ne hne v)

/-- Every write the seed-set expansion performs stores the current cluster
id, so any cell either keeps its value or ends up holding `cid`. -/
theorem dbscanExpand_getD_cases (points : List Point) (eps : ℚ) (minPts : ℤ)
    (norm : NormKey) (cid : ℕ) :
    ∀ (fuel : ℕ) (ss : List ℕ) (labels : List ℤ) (j : ℕ),
      (dbscanExpand points eps minPts norm cid fuel ss labels).getD j 0 =
          labels.getD j 0 ∨
        (dbscanExpand points eps minPts norm cid fuel ss labels).getD j 0 =
          (cid : ℤ) := by
  intro fuel
  induction fuel with
  | zero => intro ss labels j; exact Or.inl rfl
  | succ n ih =>
    intro ss labels j
    cases ss with
    | nil => exact Or.inl rfl
    | cons current rest =>
      rw [dbscanExpand]
      dsimp only
      set L1 : List ℤ := if labels.getD current 0 = -1 then
        labels.set current (cid : ℤ) else labels with hL1
      have h1 : L1.getD j 0 = labels.getD j 0 ∨ L1.getD j 0 = (cid : ℤ) := by
        rw [hL1]
        split
        · exact getD_set_cases labels current j _
        · exact Or.inl rfl
      by_cases h2 : L1.getD current 0 ≠ -99
      · rw [if_pos h2]
        rcases ih rest L1 j with hc | hc <;> rw [hc]
        · exact h1
        · exact Or.inr rfl
      · rw [if_neg h2]
        have h3 : (L1.set current (cid : ℤ)).getD j 0 = labels.getD j 0 ∨
            (L1.set current (cid : ℤ)).getD j 0 = (cid : ℤ) := by
          rcases getD_set_cases L1 current j (cid : ℤ) with hc | hc <;> rw [hc]
          · exact h1
          · exact Or.inr rfl
        rcases ih _ (L1.set current (cid : ℤ)) j with hc | hc <;> rw [hc]
        · exact h3
        · exact Or.inr rfl

/-- After the outer scan has run over a list of indices covering every
still-unvisited cell, no cell below `points.length` holds `-99` any more. -/
theorem dbscanGo_no_unvisited (points : List Point) (eps : ℚ) (minPts : ℤ)
    (norm : NormKey) :
    ∀ (is : List ℕ) (cid : ℕ) (labels : List ℤ),
      labels.length = points.length →
      (∀ j, j < points.length → j ∉ is → labels.getD j 0 ≠ -99) →
      ∀ j, j < points.length →
        (dbscanGo points eps minPts norm is cid labels).getD j 0 ≠ -99 := by
  intro is
  induction is with
  | nil => intro cid labels _ h j hj; exact h j hj (List.not_mem_nil j)
  | cons m rest ih =>
    intro cid labels hlen h j hj
    rw [dbscanGo]
    by_cases hm : labels.getD m 0 ≠ -99
    · rw [if_pos hm]
      refine ih cid labels hlen ?_ j hj
      intro j2 hj2 hnin
      rcases eq_or_ne j2 m with rfl | hne
      · exact hm
      · exact h j2 hj2 (by simp [List.mem_cons, hne, hnin])
    · rw [if_neg hm]
      push_neg at hm
      dsimp only
      split
      · refine ih cid _ (by simp [hlen]) ?_ j hj
        intro j2 hj2 hnin
        rcases eq_or_ne j2 m with rfl | hne
        · rw [getD_set_self (hlen ▸ hj2)]; decide
        · rw [getD_set_of_ne (Ne.symm hne)]
          exact h j2 hj2 (by simp [List.mem_cons, hne, hnin])
      · refine ih (cid + 1) _ ?_ ?_ j hj
        · rw [dbscanExpand_length]; simp [hlen]
        · intro j2 hj2 hnin
          rcases dbscanExpand_getD_cases points eps minPts norm cid
            (points.length + 1)
            ((regionQuery points eps norm m).filter (fun n => decide (¬ n = m)))
            (labels.set m (cid : ℤ)) j2 with hc | hc <;> rw [hc]
          · rcases eq_or_ne j2 m with rfl | hne
            · rw [getD_set_self (hlen ▸ hj2)]; omega
            · rw [getD_set_of_ne (Ne.symm hne)]
              exact h j2 hj2 (by simp [List.mem_cons, hne, hnin])
          · omega

/-- The outer scan preserves the invariant that every cell either still
holds `-99` or holds a value at least `-1`. -/
theorem dbscanGo_ge_neg_one (points : List Point) (eps : ℚ) (minPts : ℤ)
    (norm : NormKey) :
    ∀ (is : List ℕ) (cid : ℕ) (labels : List ℤ),
      (∀ j, labels.getD j 0 = -99 ∨ -1 ≤ labels.getD j 0) →
      ∀ j, (dbscanGo points eps minPts norm is cid labels).getD j 0 = -99 ∨
        -1 ≤ (dbscanGo points eps minPts norm is cid labels).getD j 0 := by
  intro is
  induction is with
  | nil => intro cid labels h j; exact h j
  | cons m rest ih =>
    intro cid labels h j
    rw [dbscanGo]
    by_cases hm : labels.getD m 0 ≠ -99
    · rw [if_pos hm]; exact ih cid labels h j
    · rw [if_neg hm]
      dsimp only
      split
      · refine ih cid _ ?_ j
        intro j2
        rcases getD_set_cases labels m j2 (-1) with hc | hc <;> rw [hc]
        · exact h j2
        · omega
      · refine ih (cid + 1) _ ?_ j
        intro j2
        rcases dbscanExpand_getD_cases points eps minPts norm cid
          (points.length + 1)
          ((regionQuery points eps norm m).filter (fun n => decide (¬ n = m)))
          (labels.set m (cid : ℤ)) j2 with hc | hc <;> rw [hc]
        · rcases getD_set_cases labels m j2 (cid : ℤ) with hc2 | hc2 <;> rw [hc2]
          · exact h j2
          · omega
        · omega

/-- Reading the `i`-th element of the `dbscan` output. -/
theorem dbscan_getD (points : List Point) (eps : ℚ) (minPts : ℤ)
    (norm : NormKey) {i : ℕ} (hi : i < points.length) :
    (dbscan points eps minPts norm).getD i default =
      ⟨(points.getD i default).x, (points.getD i default).y,
        (dbscanGo points eps minPts norm (List.range points.length) 0
          (List.replicate points.length (-99))).getD i 0⟩ := by
  unfold dbscan
  dsimp only
  rw [List.getD_eq_getElem?_getD, List.getElem?_eq_getElem (by simpa using hi)]
  rw [List.getD_eq_getElem?_getD points i default, List.getElem?_eq_getElem hi]
  simp

/-- A `Nodup` list all of whose elements equal `a` has length at most one. -/
theorem length_le_one_of_nodup_of_forall_eq {l : List ℕ} (hnd : l.Nodup)
    (a : ℕ) (h : ∀ x ∈ l, x = a) : l.length ≤ 1 := by
  cases l with
  | nil => simp
  | cons x t =>
    have hx : x = a := h x (List.mem_cons_self _ _)
    have ht : t = [] := by
      rw [List.eq_nil_iff_forall_not_mem]
      intro y hy
      have hya : y = a := h y (List.mem_cons_of_mem _ hy)
      have : x ∉ t := (List.nodup_cons.mp hnd).1
      rw [hx, ← hya] at this
      exact this hy
    simp [ht]

/-! ### K-Means (`kMeans` in `AdvancedLesson.tsx`) -/

/-- `dists.indexOf(Math.min(...dists))`: the index of the first minimum of
a distance array.  (`0` for an empty array — unreachable from `kMeans`,
which only builds it for `k ≥ 1` centroids.) -/
def argminIdx (dists : List ℚ) : ℕ :=
  match dists with
  | [] => 0
  | d :: ds => (d :: ds).indexOf (ds.foldl min d)

/-- The assignment step of `kMeans`: each point is assigned the index of
the centroid of minimal distance, the first minimum winning.
(`calcDistQ` stands in for the source's `calcDistance`; it is related to
it by a strictly monotone change of scale per norm, so the computed
argmin — and hence every comparison the algorithm makes — is identical;
see `calcDistQ_le_iff` / `calcDistQ_lt_iff`.) -/
def assignStep (points centroids : List Point) (norm : NormKey) : List ℕ :=
  points.map (fun p => argminIdx (centroids.map (fun c => calcDistQ p c norm)))

/-- Accumulator of the update step: per-cluster coordinate sums and count
(`{ x: 0, y: 0, n: 0 }` in the source). -/
structure SumAcc where
  x : ℚ
  y : ℚ
  n : ℕ
deriving DecidableEq

/-- The update step of `kMeans`: bucket the points by label, then move
every centroid with a non-empty bucket to the bucket mean; a centroid with
an empty bucket keeps its position. -/
def updateCentroids (points : List Point) (labels : List ℕ) (k : ℕ)
    (centroids : List Point) : List Point :=
  let sums := (List.zip labels points).foldl
    (fun (sums : List SumAcc) lp =>
      let s := sums.getD lp.1 ⟨0, 0, 0⟩
      sums.set lp.1 ⟨s.x + lp.2.x, s.y + lp.2.y, s.n + 1⟩)
    (List.replicate k (⟨0, 0, 0⟩ : SumAcc))
  (List.range k).map (fun idx =>
    let s := sums.getD idx ⟨0, 0, 0⟩
    if 0 < s.n then ⟨s.x / (s.n : ℚ), s.y / (s.n : ℚ)⟩ else centroids.getD idx default)

/-- The iteration of `kMeans` (`for (let iter = 0; iter < maxIter; iter++)`):
assignment, early exit when no label changed, update. -/
def kMeansLoop (points : List Point) (k : ℕ) (norm : NormKey) :
    ℕ → List Point → List ℕ → List ℕ
  | 0, _, labels => labels
  | iter + 1, centroids, labels =>
    let newLabels := assignStep points centroids norm
    if newLabels = labels then labels
    else kMeansLoop points k norm iter
      (updateCentroids points newLabels k centroids) newLabels

/-- The main body of `kMeans` once the `k` starting centroids are fixed:
labels start at `0` and the final labels are mapped back onto the points. -/
def kMeansCore (points : List Point) (k : ℕ) (norm : NormKey)
    (centroids : List Point) (maxIter : ℕ) : List LabeledPoint :=
  let labels := kMeansLoop points k norm maxIter centroids
    (List.replicate points.length 0)
  points.mapIdx (fun i p => ⟨p.x, p.y, (labels.getD i 0 : ℤ)⟩)

/-- `kMeans` from `AdvancedLesson.tsx`.  The stream of random draws
consumed by the centroid seeding is passed explicitly (`rands`); a `none`
result means the seeding loop did not terminate on that stream (in the
source: `Math.random()` is pulled from an unbounded stream and the
`while` loop never exits). -/
def kMeans (points : List Point) (k : ℤ) (norm : NormKey)
    (initialCentroids : Option (List Point)) (rands : List ℕ)
    (maxIter : ℕ) : Option (List LabeledPoint) :=
  if k ≤ 0 then some (points.map (fun p => ⟨p.x, p.y, 0⟩))
  else
    let kn := k.toNat
    let cs := match initialCentroids with
      | some ics =>
        if ics.length = kn then some ics else pickCentroids points kn rands
      | none => pickCentroids points kn rands
    cs.map (fun c => kMeansCore points kn norm c maxIter)

/-! ### Properties of the assignment argmin -/

theorem foldl_min_mem (ds : List ℚ) : ∀ d, ds.foldl min d ∈ d :: ds := by
  induction ds with
  | nil => intro d; simp
  | cons a t ih =>
    intro d
    have h := ih (min d a)
    rw [List.foldl_cons]
    rcases min_choice d a with he | he <;> rw [he] at h ⊢ <;>
      rcases List.mem_cons.mp h with h | h <;> simp [h]

theorem foldl_min_le (ds : List ℚ) : ∀ d x, x ∈ d :: ds → ds.foldl min d ≤ x := by
  induction ds with
  | nil =>
    intro d x hx
    rcases List.mem_cons.mp hx with rfl | h
    · simp
    · simp at h
  | cons a t ih =>
    intro d x hx
    rw [List.foldl_cons]
    have hstep : t.foldl min (min d a) ≤ min d a :=
      ih (min d a) (min d a) (List.mem_cons_self _ _)
    rcases List.mem_cons.mp hx with h | h
    · subst h
      exact le_trans hstep (min_le_left _ _)
    · rcases List.mem_cons.mp h with h | h
      · subst h
        exact le_trans hstep (min_le_right _ _)
      · exact ih (min d a) x (List.mem_cons_of_mem _ h)

theorem getElem?_ne_of_lt_indexOf {l : List ℚ} {a : ℚ} {j : ℕ}
    (hj : j < l.indexOf a) : l[j]? ≠ some a := by
  induction l generalizing j with
  | nil => simp at hj
  | cons b t ih =>
    by_cases hb : b = a
    · rw [List.indexOf_cons_eq _ hb] at hj
      omega
    · rw [List.indexOf_cons_ne _ hb] at hj
      cases j with
      | zero => simp [hb]
      | succ m =>
        simp only [List.getElem?_cons_succ]
        exact ih (by omega)

/-- The argmin of a nonempty distance array is a valid index that attains
the array minimum, and every strictly earlier index holds a strictly
larger value (the first minimum wins). -/
theorem argminIdx_spec (dists : List ℚ) (hne : dists ≠ []) :
    argminIdx dists < dists.length ∧
      (∀ j, j < dists.length →
        dists.getD (argminIdx dists) 0 ≤ dists.getD j 0) ∧
      (∀ j, j < argminIdx dists →
        dists.getD (argminIdx dists) 0 < dists.getD j 0) := by
  match dists with
  | [] => exact absurd rfl hne
  | d :: ds =>
    have hargm : argminIdx (d :: ds) = (d :: ds).indexOf (ds.foldl min d) := rfl
    set m := ds.foldl min d with hm
    have hmem : m ∈ d :: ds := foldl_min_mem ds d
    have hle : ∀ x ∈ d :: ds, m ≤ x := fun x hx => foldl_min_le ds d x hx
    have hidx : (d :: ds).indexOf m < (d :: ds).length :=
      List.indexOf_lt_length.mpr hmem
    have hval : (d :: ds).getD ((d :: ds).indexOf m) 0 = m := by
      rw [List.getD_eq_getElem?_getD, List.getElem?_eq_getElem hidx]
      rw [List.getElem_indexOf hidx]
      rfl
    rw [hargm, hval]
    refine ⟨hidx, ?_, ?_⟩
    · intro j hj
      rw [List.getD_eq_getElem?_getD, List.getElem?_eq_getElem hj]
      exact hle _ (List.getElem_mem hj)
    · intro j hj
      have hne2 : (d :: ds)[j]? ≠ some m := getElem?_ne_of_lt_indexOf hj
      have hjlen : j < (d :: ds).length := lt_trans hj hidx
      rw [List.getD_eq_getElem?_getD, List.getElem?_eq_getElem hjlen]
      rw [List.getElem?_eq_getElem hjlen] at hne2
      have : m ≤ (d :: ds)[j] := hle _ (List.getElem_mem hjlen)
      rcases lt_or_eq_of_le this with h | h
      · exact h
      · exact absurd (congrArg some h.symm) hne2

theorem length_le_of_nodup_lt {seen : List ℕ} {n : ℕ} (hnd : seen.Nodup)
    (hlt : ∀ m ∈ seen, m < n) : seen.length ≤ n := by
  have h1 : seen.toFinset.card = seen.length := List.toFinset_card_of_nodup hnd
  have h2 : seen.toFinset ⊆ Finset.range n := by
    intro x hx
    rw [List.mem_toFinset] at hx
    exact Finset.mem_range.mpr (hlt x hx)
  have h3 := Finset.card_le_card h2
  rw [h1, Finset.card_range] at h3
  exact h3

/-- The rejection-sampling loop can only ever collect indices below
`points.length`, so when `k` exceeds that number it runs out of any finite
supply of random draws — i.e. in the source it never terminates. -/
theorem pickCentroidsGo_eq_none {points : List Point} {k : ℕ}
    (hpos : 0 < points.length) (hk : points.length < k) :
    ∀ (rands : List ℕ) (cs : List Point) (seen : List ℕ),
      seen.Nodup → (∀ m ∈ seen, m < points.length) → cs.length = seen.length →
      pickCentroidsGo points k rands cs seen = none := by
  intro rands
  induction rands with
  | nil =>
    intro cs seen hnd hlt hcs
    rw [pickCentroidsGo]
    have hle := length_le_of_nodup_lt hnd hlt
    rw [if_neg (by omega)]
  | cons r rest ih =>
    intro cs seen hnd hlt hcs
    rw [pickCentroidsGo]
    have hle := length_le_of_nodup_lt hnd hlt
    rw [if_neg (by omega)]
    dsimp only
    by_cases hmem : drawIdx points r ∈ seen
    · rw [if_pos hmem]
      exact ih cs seen hnd hlt hcs
    · rw [if_neg hmem]
      refine ih _ _ (List.nodup_cons.mpr ⟨hmem, hnd⟩) ?_ (by simp [hcs])
      intro m hm
      rcases List.mem_cons.mp hm with rfl | hm
      · unfold drawIdx
        rw [if_neg (by omega)]
        exact Nat.mod_lt _ hpos
      · exact hlt m hm

/-! ### Deterministic point generator (`IntroductoryLesson.tsx`) -/

/-- Generated point of the introductory exercise:
`{ id, x, y, colour, clusterId, isCorrect? }`. -/
structure GPoint where
  id : ℕ
  x : ℚ
  y : ℚ
  colour : Option String
  clusterId : ℕ
  isCorrect : Option Bool
deriving DecidableEq

instance : Inhabited GPoint := ⟨⟨0, 0, 0, none, 0, none⟩⟩

/-- One call of the `mulberry32` closure.  JavaScript's 32-bit coercions
are modeled by reduction mod `2^32` (`Math.imul` is multiplication mod
`2^32`; `>>>`, `|` and `^` operate on the 32-bit value); the mutable
accumulator `a` is kept reduced mod `2^32`, which commutes with every
operation performed on it in the source. -/
def mulberry32Step (a : ℕ) : ℕ × ℚ :=
  let a2 := (a + 0x6d2b79f5) % 2 ^ 32
  let t1 := ((a2 ^^^ (a2 >>> 15)) * (a2 ||| 1)) % 2 ^ 32
  let t2 := (t1 ^^^ ((t1 + ((t1 ^^^ (t1 >>> 7)) * (t1 ||| 61)) % 2 ^ 32) % 2 ^ 32)) % 2 ^ 32
  let r : ℕ := (t2 ^^^ (t2 >>> 14)) % 2 ^ 32
  (a2, (r : ℚ) / 4294967296)

/-- `clamp` from `IntroductoryLesson.tsx`:
`Math.min(Math.max(v, min), max)`. -/
def clamp (v mn mx : ℚ) : ℚ := min (max v mn) mx

/-- One comparator call `() => 0.5 - rnd()` used by the shuffle
`[...pts].sort(() => 0.5 - rnd())`, inserting `a` into an already placed
suffix.  JavaScript's sort order under an inconsistent (random) comparator
is engine-defined; the model fixes one deterministic implementation — an
insertion sort that consumes one draw per comparison and keeps `a` in
front when `0.5 - rnd() ≤ 0` — which is what the reproducibility contract
requires (a given seed always reproduces the same output *within one
implementation*). -/
def insertRnd (a : Point) : List Point → ℕ → List Point × ℕ
  | [], s => ([a], s)
  | b :: bs, s =>
    let sr := mulberry32Step s
    if (1 : ℚ) / 2 - sr.2 ≤ 0 then (a :: b :: bs, sr.1)
    else
      let res := insertRnd a bs sr.1
      (b :: res.1, res.2)

/-- The modeled `[...pts].sort(() => 0.5 - rnd())` shuffle. -/
def sortRnd : List Point → ℕ → List Point × ℕ
  | [], s => ([], s)
  | a :: t, s =>
    let rest := sortRnd t s
    insertRnd a rest.1 rest.2

/-- The nearest-centre scan of the introductory `runKMeans` /
`generatePoints`: squared Euclidean distance with strict improvement, so
the first minimum wins (`closest = 0`, `bestD = Infinity` initially;
`Infinity` is modeled by `none`). -/
def closestCentre (p : Point) (centres : List Point) : ℕ :=
  (centres.foldl
    (fun (acc : ℕ × ℕ × Option ℚ) c =>
      let d := (p.x - c.x) ^ 2 + (p.y - c.y) ^ 2
      match acc.2.2 with
      | none => (acc.2.1, acc.2.1 + 1, some d)
      | some bd =>
        if d < bd then (acc.2.1, acc.2.1 + 1, some d)
        else (acc.1, acc.2.1 + 1, some bd))
    (0, 0, none)).1

/-- The per-round bucket accumulation of the introductory `runKMeans`. -/
def bucketSums (pts : List Point) (centres : List Point) (k : ℕ) : List SumAcc :=
  pts.foldl
    (fun (buckets : List SumAcc) p =>
      let closest := closestCentre p centres
      let s := buckets.getD closest ⟨0, 0, 0⟩
      buckets.set closest ⟨s.x + p.x, s.y + p.y, s.n + 1⟩)
    (List.replicate k (⟨0, 0, 0⟩ : SumAcc))

/-- One Lloyd round of the introductory `runKMeans`: bucket the points,
then move each centre with a non-empty bucket to the bucket mean. -/
def introRound (pts : List Point) (k : ℕ) (centres : List Point) : List Point :=
  let buckets := bucketSums pts centres k
  centres.mapIdx (fun i c =>
    let b := buckets.getD i ⟨0, 0, 0⟩
    if b.n ≠ 0 then ⟨b.x / (b.n : ℚ), b.y / (b.n : ℚ)⟩ else c)

def introIter (pts : List Point) (k : ℕ) : ℕ → List Point → List Point
  | 0, centres => centres
  | t + 1, centres => introIter pts k t (introRound pts k centres)

/-- `runKMeans` from `IntroductoryLesson.tsx`: shuffle the points, take
the first `k` as initial centres, run `iters` Lloyd rounds, and return the
final centres together with the advanced RNG state. -/
def runKMeans (pts : List Point) (k : ℕ) (iters : ℕ) (s : ℕ) :
    List Point × ℕ :=
  let sh := sortRnd pts s
  (introIter pts k iters (sh.1.take k), sh.2)

/-- Step 1 of `generatePoints`: draw `n` raw points uniformly in the
drawable region (`x` then `y`, elements in order). -/
def drawRaw : ℕ → ℕ → List Point × ℕ
  | 0, s => ([], s)
  | n + 1, s =>
    let sx := mulberry32Step s
    let sy := mulberry32Step sx.1
    let p : Point := ⟨sx.2 * (430 - 50) + 50, sy.2 * (270 - 50) + 50⟩
    let rest := drawRaw n sy.1
    (p :: rest.1, rest.2)

def CLUSTER_COUNT : ℕ := 3

/-- `PULL = 0.6` (numeric literals are embedded as exact rationals). -/
def PULL : ℚ := 3 / 5

/-- `generatePoints` from `IntroductoryLesson.tsx`: raw draws, a bootstrap
`runKMeans` pass, then each point is pulled towards its nearest centre by
`PULL` and clamped into the drawable region; the nearest-centre index is
recorded as the hidden `clusterId`. -/
def generatePoints (n k : ℕ) (s : ℕ) : List GPoint :=
  let raw := drawRaw n s
  let km := runKMeans raw.1 k 8 raw.2
  let centres := km.1
  raw.1.mapIdx (fun id p =>
    let cluster := closestCentre p centres
    let cx := (centres.getD cluster default).x
    let cy := (centres.getD cluster default).y
    ⟨id, clamp (p.x + (cx - p.x) * PULL) 50 430,
      clamp (p.y + (cy - p.y) * PULL) 50 270, none, cluster, none⟩)

/-! ### Assignment validator (`evaluate` in `IntroductoryLesson.tsx`) -/

/-- `evaluate` from `IntroductoryLesson.tsx`: a point with no colour is
marked incorrect; otherwise it is correct iff every same-cluster point has
the identical colour and no other-cluster point shares it.  Returns the
updated points and the count of correct ones. -/
def evaluate (pts : List GPoint) : List GPoint × ℕ :=
  let updated := pts.map (fun p =>
    match p.colour with
    | none => { p with isCorrect := some false }
    | some c =>
      let sameClusterConsistent := pts.all
        (fun q => decide (q.clusterId ≠ p.clusterId ∨ q.colour = some c))
      let noOtherClusterSharesColour := pts.all
        (fun q => decide (q.clusterId = p.clusterId ∨ q.colour ≠ some c))
      { p with isCorrect := some (sameClusterConsistent && noOtherClusterSharesColour) })
  (updated, (updated.filter (fun p => p.isCorrect == some true)).length)

end ClusterStudy

open ClusterStudy

/-- C4: for every input to `dbscan` with `eps > 0` and `minPts ≥ 1`, every
point of the returned sequence carries a label that is either `-1` (noise)
or a non-negative cluster id; the internal unvisited marker `-99` never
appears in the output. -/
theorem claim_C4_no_unvisited_in_output
    (points : List Point) (eps : ℚ) (minPts : ℤ) (norm : NormKey)
    (heps : 0 < eps) (hmin : 1 ≤ minPts) (i : ℕ) (hi : i < points.length) :
    ((dbscan points eps minPts norm).getD i default).cluster = -1 ∨
      0 ≤ ((dbscan points eps minPts norm).getD i default).cluster := by
  rw [dbscan_getD points eps minPts norm hi]
  have h1 := dbscanGo_no_unvisited points eps minPts norm
    (List.range points.length) 0 (List.replicate points.length (-99))
    (by simp)
    (fun j hj hnin => absurd (List.mem_range.mpr hj) hnin) i hi
  have h2 := dbscanGo_ge_neg_one points eps minPts norm
    (List.range points.length) 0 (List.replicate points.length (-99))
    ?_ i
  · rcases h2 with h2 | h2
    · exact absurd h2 h1
    · dsimp only
      omega
  · intro j
    rw [List.getD_eq_getElem?_getD, List.getElem?_replicate]
    split
    · exact Or.inl rfl
    · exact Or.inr (by norm_num)

/-- Witness for C4 at a concrete input. -/
theorem claim_C4_no_unvisited_in_output_witness :
    (0 : ℚ) < 1 ∧ (1 : ℤ) ≤ 2 ∧
      (((dbscan [⟨0, 0⟩, ⟨1, 0⟩, ⟨5, 5⟩] 1 2 .L1).getD 0 default).cluster = -1 ∨
        0 ≤ ((dbscan [⟨0, 0⟩, ⟨1, 0⟩, ⟨5, 5⟩] 1 2 .L1).getD 0 default).cluster) :=
  ⟨by norm_num, by norm_num,
    claim_C4_no_unvisited_in_output [⟨0, 0⟩, ⟨1, 0⟩, ⟨5, 5⟩] 1 2 .L1
      (by norm_num) (by norm_num) 0 (by norm_num)⟩

/-- C3 counterexample: with `eps = 1 > 0` and `minPts = 1 ≥ 1`, two points
at Manhattan distance `100 > eps` are each isolated, yet `dbscan` labels
them `0` and `1` — not `-1` — because a lone point is its own
`minPts = 1`-neighborhood and becomes a core point. -/
theorem claim_C3_counterexample :
    (0 : ℚ) < 1 ∧ (1 : ℤ) ≤ 1 ∧
      ((1 : ℚ) : ℝ) < calcDistance ⟨0, 0⟩ ⟨100, 0⟩ .L1 ∧
      dbscan [⟨0, 0⟩, ⟨100, 0⟩] 1 1 .L1 = [⟨0, 0, 0⟩, ⟨100, 0, 1⟩] ∧
      ((dbscan [⟨0, 0⟩, ⟨100, 0⟩] 1 1 .L1).getD 0 default).cluster ≠ -1 := by
  have hrun : dbscan [⟨0, 0⟩, ⟨100, 0⟩] 1 1 .L1 = [⟨0, 0, 0⟩, ⟨100, 0, 1⟩] := by
    norm_num [dbscan, dbscanGo, dbscanExpand, regionQuery, distLE, calcDistQ,
      List.range_succ]
  refine ⟨by norm_num, by norm_num, ?_, hrun, ?_⟩
  · rw [calcDistance_eq_cast_L1]
    norm_num
  · rw [hrun]
    norm_num

/-- C3 (amended): for every input sequence, every `eps > 0`, every
`minPts ≥ 2` and every metric, a point whose distance to every other point
exceeds `eps` is labeled `-1` (noise) by `dbscan`.  (The original claim,
stated for every `minPts ≥ 1`, fails at `minPts = 1`: see the
counterexample.) -/
theorem claim_C3_amended_isolated_noise
    (points : List Point) (eps : ℚ) (minPts : ℤ) (norm : NormKey) (i : ℕ)
    (hi : i < points.length) (heps : 0 < eps) (hmin : 2 ≤ minPts)
    (hiso : ∀ j, j < points.length → j ≠ i →
      (eps : ℝ) < calcDistance (points.getD i default) (points.getD j default) norm) :
    ((dbscan points eps minPts norm).getD i default).cluster = -1 := by
  have hisoB : ∀ j, j < points.length → j ≠ i →
      distLE (points.getD i default) (points.getD j default) norm eps = false := by
    intro j hj hne
    have h := not_le.mpr (hiso j hj hne)
    rw [← distLE_iff] at h
    exact Bool.not_eq_true _ ▸ eq_false_of_ne_true h
  have hnm : ∀ j, j < points.length → j ≠ i → i ∉ regionQuery points eps norm j :=
    fun j hj hne => not_mem_regionQuery_of_isolated hisoB hj hne
  have hsub : ∀ x ∈ regionQuery points eps norm i, x = i := by
    intro x hx
    rw [mem_regionQuery] at hx
    by_contra hne
    have hfalse := hisoB x hx.1 hne
    rw [hfalse] at hx
    exact absurd hx.2 (by simp)
  have hlen1 : (regionQuery points eps norm i).length ≤ 1 :=
    length_le_one_of_nodup_of_forall_eq (nodup_regionQuery points eps norm i) i hsub
  have hshort : ((regionQuery points eps norm i).length : ℤ) < minPts := by omega
  rw [dbscan_getD points eps minPts norm hi]
  refine dbscanGo_getD_isolated hi hnm hshort (List.range points.length) 0 _
    (by simp) (fun m hm => List.mem_range.mp hm) (Or.inl ⟨?_, List.mem_range.mpr hi⟩)
  rw [List.getD_eq_getElem?_getD, List.getElem?_replicate_of_lt hi]
  rfl

/-- Witness for the amended C3: an isolated point with `minPts = 2` is
labeled `-1`. -/
theorem claim_C3_amended_isolated_noise_witness :
    (0 : ℚ) < 1 ∧ (2 : ℤ) ≤ 2 ∧
      ((dbscan [⟨0, 0⟩, ⟨10, 0⟩, ⟨10, 1⟩] 1 2 .L1).getD 0 default).cluster = -1 :=
  ⟨by norm_num, by norm_num,
    claim_C3_amended_isolated_noise [⟨0, 0⟩, ⟨10, 0⟩, ⟨10, 1⟩] 1 2 .L1 0
      (by norm_num) (by norm_num) (by norm_num)
      (by
        intro j hj hne
        have hj3 : j < 3 := by simpa using hj
        interval_cases j
        · exact absurd rfl hne
        · rw [calcDistance_eq_cast_L1]
          norm_num
        · rw [calcDistance_eq_cast_L1]
          norm_num)⟩

/-- C2 counterexample: with the out-of-domain parameters `eps = -1 ≤ 0`
and `minPts = 0 < 1`, `dbscan` does not fail with an error — it silently
returns a labeling (the lone point becomes cluster `0`). -/
theorem claim_C2_counterexample :
    (-1 : ℚ) ≤ 0 ∧ (0 : ℤ) < 1 ∧
      dbscan [⟨0, 0⟩] (-1) 0 .L1 = [⟨0, 0, 0⟩] := by
  refine ⟨by norm_num, by norm_num, ?_⟩
  norm_num [dbscan, dbscanGo, dbscanExpand, regionQuery, distLE, calcDistQ,
    List.range_succ]

/-- C2 (amended): the core does not fail fast on out-of-domain input.
Instead, (1) the random centroid seeding of `kMeans` never terminates when
`k` exceeds the number of available points — no finite sequence of random
draws makes the rejection-sampling loop finish — and (2) `dbscan` is a
total function that silently returns a full labeling for every `eps` and
`minPts`, in-domain or not. -/
theorem claim_C2_amended_no_fail_fast :
    (∀ (points : List Point) (k : ℕ) (rands : List ℕ),
      0 < points.length → points.length < k →
        pickCentroids points k rands = none) ∧
    (∀ (points : List Point) (eps : ℚ) (minPts : ℤ) (norm : NormKey),
      (dbscan points eps minPts norm).length = points.length) := by
  constructor
  · intro points k rands hpos hk
    exact pickCentroidsGo_eq_none hpos hk rands [] [] List.nodup_nil
      (fun m hm => absurd hm (List.not_mem_nil m)) rfl
  · intro points eps minPts norm
    unfold dbscan
    simp

/-- Witness for the amended C2. -/
theorem claim_C2_amended_no_fail_fast_witness :
    pickCentroids [⟨0, 0⟩] 2 [0, 1, 2] = none ∧
      (dbscan [⟨0, 0⟩] (-1) 0 .L1).length = 1 :=
  ⟨claim_C2_amended_no_fail_fast.1 [⟨0, 0⟩] 2 [0, 1, 2] (by norm_num) (by norm_num),
    claim_C2_amended_no_fail_fast.2 [⟨0, 0⟩] (-1) 0 .L1⟩

/-- C7: for every pair of 2D points `a`, `b`, the Chebyshev distance is at
most the Euclidean distance, which is at most the Manhattan distance. -/
theorem claim_C7_norm_ordering (a b : Point) :
    calcDistance a b .Linf ≤ calcDistance a b .L2 ∧
      calcDistance a b .L2 ≤ calcDistance a b .L1 := by
  simp only [calcDistance]
  set dx : ℝ := (a.x : ℝ) - (b.x : ℝ) with hdx
  set dy : ℝ := (a.y : ℝ) - (b.y : ℝ) with hdy
  constructor
  · apply max_le
    · calc |dx| = Real.sqrt (dx ^ 2) := (Real.sqrt_sq_eq_abs dx).symm
        _ ≤ Real.sqrt (dx ^ 2 + dy ^ 2) :=
            Real.sqrt_le_sqrt (by nlinarith [sq_nonneg dy])
    · calc |dy| = Real.sqrt (dy ^ 2) := (Real.sqrt_sq_eq_abs dy).symm
        _ ≤ Real.sqrt (dx ^ 2 + dy ^ 2) :=
            Real.sqrt_le_sqrt (by nlinarith [sq_nonneg dx])
  · calc Real.sqrt (dx ^ 2 + dy ^ 2)
        ≤ Real.sqrt ((|dx| + |dy|) ^ 2) := by
          apply Real.sqrt_le_sqrt
          have h1 : (0 : ℝ) ≤ |dx| * |dy| := by positivity
          have h2 : dx ^ 2 = |dx| ^ 2 := (sq_abs dx).symm
          have h3 : dy ^ 2 = |dy| ^ 2 := (sq_abs dy).symm
          nlinarith
      _ = |dx| + |dy| := Real.sqrt_sq (by positivity)

/-- C8: `calcDistance` is a total function that is symmetric in its two
point arguments for every metric kind, and it is zero exactly when the two
points are equal. -/
theorem claim_C8_symm_and_zero_iff (a b : Point) (norm : NormKey) :
    calcDistance a b norm = calcDistance b a norm ∧
      (calcDistance a b norm = 0 ↔ a = b) := by
  refine ⟨calcDistance_symm a b norm, ?_⟩
  have hx : ((a.x : ℝ) - (b.x : ℝ) = 0) ↔ a.x = b.x := by
    rw [sub_eq_zero]; exact_mod_cast Iff.rfl
  have hy : ((a.y : ℝ) - (b.y : ℝ) = 0) ↔ a.y = b.y := by
    rw [sub_eq_zero]; exact_mod_cast Iff.rfl
  have hpt : a = b ↔ a.x = b.x ∧ a.y = b.y := by
    constructor
    · rintro rfl; exact ⟨rfl, rfl⟩
    · rintro ⟨h1, h2⟩; cases a; cases b; simp_all
  cases norm
  · simp only [calcDistance]
    rw [hpt, ← hx, ← hy]
    constructor
    · intro h
      have h1 : |(a.x : ℝ) - (b.x : ℝ)| = 0 ∧ |(a.y : ℝ) - (b.y : ℝ)| = 0 := by
        constructor <;> nlinarith [abs_nonneg ((a.x : ℝ) - (b.x : ℝ)),
          abs_nonneg ((a.y : ℝ) - (b.y : ℝ))]
      exact ⟨abs_eq_zero.mp h1.1, abs_eq_zero.mp h1.2⟩
    · rintro ⟨h1, h2⟩; rw [h1, h2]; simp
  · simp only [calcDistance]
    rw [hpt, ← hx, ← hy]
    rw [Real.sqrt_eq_zero (by positivity)]
    constructor
    · intro h
      constructor <;> nlinarith [sq_nonneg ((a.x : ℝ) - (b.x : ℝ)),
        sq_nonneg ((a.y : ℝ) - (b.y : ℝ))]
    · rintro ⟨h1, h2⟩; rw [h1, h2]; ring
  · simp only [calcDistance]
    rw [hpt, ← hx, ← hy]
    constructor
    · intro h
      have h1 : |(a.x : ℝ) - (b.x : ℝ)| ≤ 0 := by
        rw [← h]; exact le_max_left _ _
      have h2 : |(a.y : ℝ) - (b.y : ℝ)| ≤ 0 := by
        rw [← h]; exact le_max_right _ _
      exact ⟨abs_eq_zero.mp (le_antisymm h1 (abs_nonneg _)),
        abs_eq_zero.mp (le_antisymm h2 (abs_nonneg _))⟩
    · rintro ⟨h1, h2⟩; rw [h1, h2]; simp

/-- C6: for every input sequence and every `k ≤ 0`, `kMeans` returns the
degenerate non-error result in which every point is labeled `0`. -/
theorem claim_C6_degenerate_k (points : List Point) (k : ℤ) (norm : NormKey)
    (initialCentroids : Option (List Point)) (rands : List ℕ) (maxIter : ℕ)
    (hk : k ≤ 0) :
    kMeans points k norm initialCentroids rands maxIter =
      some (points.map (fun p => ⟨p.x, p.y, 0⟩)) := by
  unfold kMeans
  rw [if_pos hk]

/-- Witness for C6: `k = -3` labels both points `0`. -/
theorem claim_C6_degenerate_k_witness :
    (-3 : ℤ) ≤ 0 ∧
      kMeans [⟨1, 2⟩, ⟨3, 4⟩] (-3) .L2 none [] 50 =
        some [⟨1, 2, 0⟩, ⟨3, 4, 0⟩] :=
  ⟨by norm_num,
    (claim_C6_degenerate_k [⟨1, 2⟩, ⟨3, 4⟩] (-3) .L2 none [] 50
      (by norm_num)).trans (by norm_num)⟩

/-- C5: in every assignment round of `kMeans`, every point is assigned to
the centroid of minimal distance under the chosen metric, and when several
centroids are at equal minimal distance the lowest index wins (every
strictly earlier centroid is strictly farther). -/
theorem claim_C5_assignment_nearest
    (points centroids : List Point) (norm : NormKey) (i : ℕ)
    (hi : i < points.length) (hc : centroids ≠ []) :
    (assignStep points centroids norm).getD i 0 < centroids.length ∧
      (∀ j, j < centroids.length →
        calcDistance (points.getD i default)
            (centroids.getD ((assignStep points centroids norm).getD i 0) default)
            norm ≤
          calcDistance (points.getD i default) (centroids.getD j default) norm) ∧
      (∀ j, j < (assignStep points centroids norm).getD i 0 →
        calcDistance (points.getD i default)
            (centroids.getD ((assignStep points centroids norm).getD i 0) default)
            norm <
          calcDistance (points.getD i default) (centroids.getD j default) norm) := by
  set p := points.getD i default with hp
  set dlist := centroids.map (fun c => calcDistQ p c norm) with hdl
  have hmap : (assignStep points centroids norm).getD i 0 = argminIdx dlist := by
    unfold assignStep
    rw [List.getD_eq_getElem?_getD, List.getElem?_eq_getElem (by simpa using hi)]
    rw [List.getElem_map]
    have hpi : points[i] = p := by
      rw [hp, List.getD_eq_getElem?_getD points i default,
        List.getElem?_eq_getElem hi]
      rfl
    rw [hpi]
    rfl
  have hlen : dlist.length = centroids.length := by
    rw [hdl, List.length_map]
  have hne : dlist ≠ [] := by
    rw [hdl]
    simpa using hc
  have hdj : ∀ j, j < centroids.length →
      dlist.getD j 0 = calcDistQ p (centroids.getD j default) norm := by
    intro j hj
    rw [hdl, List.getD_eq_getElem?_getD,
      List.getElem?_eq_getElem (by simpa using hj), List.getElem_map]
    rw [List.getD_eq_getElem?_getD centroids j default, List.getElem?_eq_getElem hj]
    rfl
  obtain ⟨hm, hmin, hfirst⟩ := argminIdx_spec dlist hne
  rw [hlen] at hm
  rw [hmap]
  refine ⟨hm, ?_, ?_⟩
  · intro j hj
    rw [← calcDistQ_le_iff, ← hdj _ hm, ← hdj _ hj]
    exact hmin j (by omega)
  · intro j hj
    rw [← calcDistQ_lt_iff, ← hdj _ hm, ← hdj _ (lt_trans hj hm)]
    exact hfirst j hj

/-- Witness for C5: with two centroids at equal L1 distance from the
origin, the first one (index 0) wins. -/
theorem claim_C5_assignment_nearest_witness :
    ([⟨1, 0⟩, ⟨0, 1⟩] : List Point) ≠ [] ∧
      (assignStep [⟨0, 0⟩] [⟨1, 0⟩, ⟨0, 1⟩] .L1).getD 0 0 < 2 ∧
      calcDistance ⟨0, 0⟩ ⟨1, 0⟩ .L1 ≤ calcDistance ⟨0, 0⟩ ⟨0, 1⟩ .L1 := by
  have h := claim_C5_assignment_nearest [⟨0, 0⟩] [⟨1, 0⟩, ⟨0, 1⟩] .L1 0
    (by norm_num) (by simp)
  have hassign : (assignStep [⟨0, 0⟩] [⟨1, 0⟩, ⟨0, 1⟩] .L1).getD 0 0 = 0 := by
    norm_num [assignStep, argminIdx, calcDistQ, List.indexOf, List.findIdx_cons,
      beq_self_eq_true]
  refine ⟨by simp, by rw [hassign]; norm_num, ?_⟩
  have h2 := h.2.1 1 (by norm_num)
  rw [hassign] at h2
  simpa using h2

/-- C9: two invocations of the point generator with the same arguments and
the same seed (in particular `generate(10, 3, 20250423)`) produce identical
sequences: same length, bit-identical `x` and `y` coordinates, and
identical `clusterId` values at every position.  In this embedding the
generator is a pure function of `(n, k, seed)` — its only inputs are the
arguments and the seeded `mulberry32` stream — so two runs coincide. -/
theorem claim_C9_generator_reproducible (n k seed : ℕ) :
    (generatePoints n k seed).length = (generatePoints n k seed).length ∧
      (generatePoints n k seed).map GPoint.x =
        (generatePoints n k seed).map GPoint.x ∧
      (generatePoints n k seed).map GPoint.y =
        (generatePoints n k seed).map GPoint.y ∧
      (generatePoints n k seed).map GPoint.clusterId =
        (generatePoints n k seed).map GPoint.clusterId ∧
      generatePoints 10 3 20250423 = generatePoints 10 3 20250423 :=
  ⟨rfl, rfl, rfl, rfl, rfl⟩

/-- C1: the validator marks a point correct iff (a) every point sharing
its `clusterId` has the identical colour AND (b) no point with a different
`clusterId` has that colour; a point whose colour is `null` is always
marked incorrect; `isCorrect` is set on every element of the returned
sequence (of the input's length); and the returned count is the number of
points marked correct. -/
theorem claim_C1_validator (pts : List GPoint) (i : ℕ) (hi : i < pts.length) :
    (evaluate pts).1.length = pts.length ∧
      ((evaluate pts).1.getD i default).isCorrect ≠ none ∧
      (((evaluate pts).1.getD i default).isCorrect = some true ↔
        ((pts.getD i default).colour ≠ none ∧
          (∀ q ∈ pts, q.clusterId = (pts.getD i default).clusterId →
            q.colour = (pts.getD i default).colour) ∧
          (∀ q ∈ pts, q.clusterId ≠ (pts.getD i default).clusterId →
            q.colour ≠ (pts.getD i default).colour))) ∧
      (evaluate pts).2 =
        ((evaluate pts).1.filter (fun p => p.isCorrect == some true)).length := by
  have hlen : (evaluate pts).1.length = pts.length := by
    unfold evaluate
    simp
  set p := pts.getD i default with hp
  have hpi : pts[i] = p := by
    rw [hp, List.getD_eq_getElem?_getD pts i default, List.getElem?_eq_getElem hi]
    rfl
  have hval : (evaluate pts).1.getD i default =
      match p.colour with
      | none => { p with isCorrect := some false }
      | some c =>
        { p with isCorrect := some (pts.all
              (fun q => decide (q.clusterId ≠ p.clusterId ∨ q.colour = some c)) &&
            pts.all
              (fun q => decide (q.clusterId = p.clusterId ∨ q.colour ≠ some c))) } := by
    unfold evaluate
    dsimp only
    rw [List.getD_eq_getElem?_getD, List.getElem?_eq_getElem (by simpa using hi),
      List.getElem_map, hpi]
    rfl
  refine ⟨hlen, ?_, ?_, rfl⟩
  · rw [hval]
    rcases p.colour with _ | c <;> simp
  · rw [hval]
    rcases hcol : p.colour with _ | c
    · simp [hcol]
    · simp only [hcol, Option.some.injEq, Bool.and_eq_true, List.all_eq_true,
        decide_eq_true_eq, ne_eq, reduceCtorEq, not_false_eq_true, true_and]
      constructor
      · rintro ⟨h1, h2⟩
        constructor
        · intro q hq hcid
          rcases h1 q hq with h | h
          · exact absurd hcid h
          · exact h
        · intro q hq hcid
          rcases h2 q hq with h | h
          · exact absurd h hcid
          · exact h
      · rintro ⟨h1, h2⟩
        constructor
        · intro q hq
          by_cases hcid : q.clusterId = p.clusterId
          · exact Or.inr (h1 q hq hcid)
          · exact Or.inl hcid
        · intro q hq
          by_cases hcid : q.clusterId = p.clusterId
          · exact Or.inl hcid
          · exact Or.inr (h2 q hq hcid)

/-- Witness for C1: one yellow-coloured point forming its own cluster is
marked correct, and the count is 1. -/
theorem claim_C1_validator_witness :
    (evaluate [⟨0, 5, 6, some "y", 0, none⟩]).1.length = 1 ∧
      ((evaluate [⟨0, 5, 6, some "y", 0, none⟩]).1.getD 0 default).isCorrect =
        some true ∧
      (evaluate [⟨0, 5, 6, some "y", 0, none⟩]).2 = 1 := by
  have h := claim_C1_validator [⟨0, 5, 6, some "y", 0, none⟩] 0 (by norm_num)
  refine ⟨h.1, ?_, by norm_num [evaluate]⟩
  rw [h.2.2.1]
  refine ⟨by simp, ?_, ?_⟩
  · intro q hq hcid
    rcases List.mem_cons.mp hq with rfl | hq
    · rfl
    · simp at hq
  · intro q hq hcid
    rcases List.mem_cons.mp hq with rfl | hq
    · exact absurd rfl hcid
    · simp at hq

namespace ClusterStudy

theorem kMeansCore_length (points : List Point) (k : ℕ) (norm : NormKey)
    (cs : List Point) (maxIter : ℕ) :
    (kMeansCore points k norm cs maxIter).length = points.length := by
  unfold kMeansCore
  simp

/-- Reading the `i`-th element of the `kMeansCore` output. -/
theorem kMeansCore_getD (points : List Point) (k : ℕ) (norm : NormKey)
    (cs : List Point) (maxIter : ℕ) {i : ℕ} (hi : i < points.length) :
    (kMeansCore points k norm cs maxIter).getD i default =
      ⟨(points.getD i default).x, (points.getD i default).y,
        ((kMeansLoop points k norm maxIter cs
          (List.replicate points.length 0)).getD i 0 : ℤ)⟩ := by
  unfold kMeansCore
  dsimp only
  rw [List.getD_eq_getElem?_getD, List.getElem?_eq_getElem (by simpa using hi)]
  rw [List.getD_eq_getElem?_getD points i default, List.getElem?_eq_getElem hi]
  simp

/-- `evaluate` only rewrites `isCorrect`: all other fields of the `i`-th
output element match the `i`-th input element. -/
theorem evaluate_getD_fields (pts : List GPoint) {i : ℕ} (hi : i < pts.length) :
    ((evaluate pts).1.getD i default).id = (pts.getD i default).id ∧
      ((evaluate pts).1.getD i default).x = (pts.getD i default).x ∧
      ((evaluate pts).1.getD i default).y = (pts.getD i default).y ∧
      ((evaluate pts).1.getD i default).colour = (pts.getD i default).colour ∧
      ((evaluate pts).1.getD i default).clusterId = (pts.getD i default).clusterId := by
  have hpi : pts.getD i default = pts[i] := by
    rw [List.getD_eq_getElem?_getD pts i default, List.getElem?_eq_getElem hi]
    rfl
  have hval : (evaluate pts).1.getD i default =
      match pts[i].colour with
      | none => { pts[i] with isCorrect := some false }
      | some c =>
        { pts[i] with isCorrect := some (pts.all
              (fun q => decide (q.clusterId ≠ pts[i].clusterId ∨ q.colour = some c)) &&
            pts.all
              (fun q => decide (q.clusterId = pts[i].clusterId ∨ q.colour ≠ some c))) } := by
    unfold evaluate
    dsimp only
    rw [List.getD_eq_getElem?_getD, List.getElem?_eq_getElem (by simpa using hi),
      List.getElem_map]
    rfl
  rw [hpi]
  rcases hcol : pts[i].colour with _ | c <;> rw [hcol] at hval <;> rw [hval] <;>
    simp [hcol]

end ClusterStudy

/-- C10: `kMeans`, `dbscan` and the validator each return a fresh sequence
of exactly the input's length, in input order: the `i`-th output element
carries the `i`-th input's `x` and `y` (and, for the validator, also its
`id`, `colour` and `clusterId`).  The embedding is purely functional, so
the caller's input sequence and its elements are left unmodified by
construction. -/
theorem claim_C10_frame :
    (∀ (points : List Point) (k : ℤ) (norm : NormKey)
        (ics : Option (List Point)) (rands : List ℕ) (maxIter : ℕ)
        (out : List LabeledPoint),
      kMeans points k norm ics rands maxIter = some out →
        out.length = points.length ∧
          ∀ i, i < points.length →
            (out.getD i default).x = (points.getD i default).x ∧
            (out.getD i default).y = (points.getD i default).y) ∧
    (∀ (points : List Point) (eps : ℚ) (minPts : ℤ) (norm : NormKey),
      (dbscan points eps minPts norm).length = points.length ∧
        ∀ i, i < points.length →
          ((dbscan points eps minPts norm).getD i default).x =
              (points.getD i default).x ∧
            ((dbscan points eps minPts norm).getD i default).y =
              (points.getD i default).y) ∧
    (∀ pts : List GPoint,
      (evaluate pts).1.length = pts.length ∧
        ∀ i, i < pts.length →
          ((evaluate pts).1.getD i default).id = (pts.getD i default).id ∧
            ((evaluate pts).1.getD i default).x = (pts.getD i default).x ∧
            ((evaluate pts).1.getD i default).y = (pts.getD i default).y ∧
            ((evaluate pts).1.getD i default).colour = (pts.getD i default).colour ∧
            ((evaluate pts).1.getD i default).clusterId =
              (pts.getD i default).clusterId) := by
  refine ⟨?_, ?_, ?_⟩
  · intro points k norm ics rands maxIter out hout
    unfold kMeans at hout
    split at hout
    · rw [Option.some.injEq] at hout
      subst hout
      refine ⟨by simp, ?_⟩
      intro i hi
      rw [List.getD_eq_getElem?_getD, List.getElem?_eq_getElem (by simpa using hi),
        List.getElem_map]
      rw [List.getD_eq_getElem?_getD points i default, List.getElem?_eq_getElem hi]
      exact ⟨rfl, rfl⟩
    · dsimp only at hout
      rw [Option.map_eq_some'] at hout
      obtain ⟨c, -, hc⟩ := hout
      subst hc
      refine ⟨kMeansCore_length points k.toNat norm c maxIter, ?_⟩
      intro i hi
      rw [kMeansCore_getD points k.toNat norm c maxIter hi]
      exact ⟨rfl, rfl⟩
  · intro points eps minPts norm
    constructor
    · unfold dbscan
      simp
    · intro i hi
      rw [dbscan_getD points eps minPts norm hi]
      exact ⟨rfl, rfl⟩
  · intro pts
    constructor
    · unfold evaluate
      simp
    · intro i hi
      exact evaluate_getD_fields pts hi

/-- Witness for C10 at concrete inputs for all three operations. -/
theorem claim_C10_frame_witness :
    (kMeans [⟨0, 0⟩, ⟨4, 0⟩] 1 .L1 (some [⟨0, 0⟩]) [] 2 =
        some [⟨0, 0, 0⟩, ⟨4, 0, 0⟩]) ∧
      ([⟨0, 0, 0⟩, ⟨4, 0, 0⟩] : List LabeledPoint).length = 2 ∧
      (dbscan [⟨7, 8⟩] 1 2 .L1).length = 1 ∧
      ((dbscan [⟨7, 8⟩] 1 2 .L1).getD 0 default).x = 7 ∧
      ((evaluate [⟨0, 5, 6, none, 2, none⟩]).1.getD 0 default).clusterId = 2 := by
  have hk : kMeans [⟨0, 0⟩, ⟨4, 0⟩] 1 .L1 (some [⟨0, 0⟩]) [] 2 =
      some [⟨0, 0, 0⟩, ⟨4, 0, 0⟩] := by
    norm_num [kMeans, kMeansCore, kMeansLoop, assignStep, argminIdx, calcDistQ,
      List.indexOf, List.findIdx_cons, beq_self_eq_true, List.replicate_succ]
  have h1 := (claim_C10_frame.1 [⟨0, 0⟩, ⟨4, 0⟩] 1 .L1 (some [⟨0, 0⟩]) [] 2
    [⟨0, 0, 0⟩, ⟨4, 0, 0⟩] hk).1
  have h2 := claim_C10_frame.2.1 [⟨7, 8⟩] 1 2 .L1
  have h3 := (claim_C10_frame.2.2 [⟨0, 5, 6, none, 2, none⟩]).2 0 (by norm_num)
  refine ⟨hk, by simpa using h1.symm ▸ h1, h2.1, ?_, ?_⟩
  · rw [(h2.2 0 (by norm_num)).1]
    rfl
  · rw [h3.2.2.2.2]
    rfl
